import Mathlib

/-!
Verification of the `bplustree` package (files `bplustree.go` and `cache.go`)
of the SearchEngine repository.

The development is a shallow embedding of the two source files:

* the B+tree engine (`bplustree.go`): `MemPage`, `find`, `Search`, `insert`,
  `Insert` with its split-propagation loop and root-split branch;
* the page cache (`cache.go`): the hash-table / fetch subsystem
  (`FetchPage`, `ResizeHash`, `RemoveFromHash`, `AllocPage`) and the
  dirty-list subsystem (`ManageDirtyList`, `MakeDirty`, `MakeClean`,
  `MakeCleanAll`).

Machine integers of the source (`uint32`, `uint16`) are modelled as `Nat`:
no arithmetic in the translated fragments can overflow or underflow on the
inputs considered (keys, page numbers and counters stay far below `2^16`),
with the single exception of `nPage--` in `RemoveFromHash`, modelled with
truncated subtraction exactly like Go's unsigned decrement applied to the
non-negative counter.

Raw-pointer reads of the source (`p.cell[i]` through an `unsafe.Pointer`)
carry no bounds check; a page's cell area is therefore modelled as a total
function `cells : Nat → Cell` giving the bytes of the underlying buffer at
every slot index, including the indices at and beyond `nCell` whose content
is whatever happens to sit past the cell-pointer array.
-/

namespace BT

/-- Page-type flags, from the constant block of `bplustree.go`. -/
def LEAFPAGE : Nat := 0

/-- Interior-page flag, from the constant block of `bplustree.go`. -/
def INTERPAGE : Nat := 1

/-- `PageHeader` of `bplustree.go`.  The field at offset 8 is declared
`parent uint32` in the source (its layout comment calls it the right child;
`parent()`/`setparent` treat it as parent linkage). -/
structure PageHeader where
  flag : Nat
  freeOffset : Nat
  nCell : Nat
  pgno : Nat
  nFree : Nat
  parent : Nat
  deriving DecidableEq

/-- `Cell` of `bplustree.go`: `(ptr, key)` where `ptr` is a child page
number on interior pages and a payload locator on leaves. -/
structure Cell where
  ptr : Nat
  key : Nat
  deriving DecidableEq

/-- `Payload` of `bplustree.go`: a key, the count of values, and the
value area (the source keeps the values behind an `unsafe.Pointer`;
they are modelled as the list they denote). -/
structure Payload where
  key : Nat
  size : Nat
  entrys : List Nat

/-- `MemPage` of `bplustree.go`: the parsed header plus the cell index
area.  `cells` is the raw buffer view: slot `i` for every `i`, with
indices `≥ ph.nCell` reading bytes beyond the cell-pointer array
(the source accesses them through an unchecked `unsafe.Pointer`). -/
structure MemPage where
  ph : PageHeader
  cells : Nat → Cell

/-- `BPlusTree` of `bplustree.go`, restricted to the fields the embedded
operations read: the current root page (`page`) and the pgno → page map
(`hm`).  The Go map yields a zero value for absent keys; `hm` is total. -/
structure BPlusTree where
  page : MemPage
  hm : Nat → MemPage

/-- Go's `sort.Search(n, f)`: the smallest `i` in `[0, n)` with `f i`,
and `n` when there is none.  `firstTrueAux f i fuel` scans upward from
`i` for `fuel` steps. -/
def firstTrueAux (f : Nat → Bool) (i : Nat) : Nat → Nat
  | 0 => i
  | fuel + 1 => if f i then i else firstTrueAux f (i + 1) fuel

/-- Go's `sort.Search(n, f)`. -/
def sortSearch (n : Nat) (f : Nat → Bool) : Nat :=
  firstTrueAux f 0 n

/-- Result of `MemPage.find`, the source's `(int, bool)` pair with `nil`
rendered as `none`. -/
structure FindOut where
  ptr : Option Nat
  ok : Bool
  deriving DecidableEq

/-- `(p *MemPage) find(key)` of `bplustree.go`, verbatim:

* `i := sort.Search(p.ph.nCell, func(i) { return p.cell[i].key >= key })`;
* interior page: return `(p.cell[i].ptr, true)` — the slot at `i` is read
  even when `i = nCell`, and the comparison is non-strict;
* otherwise: `if i <= p.ph.nCell && p.cell[i].key == key` return
  `(p.cell[i].ptr, true)`, else `(nil, false)` — `i ≤ nCell` always holds
  for the result of `sort.Search`, so the slot at `i` is read even when
  `i = nCell`. -/
def MemPage.find (p : MemPage) (key : Nat) : FindOut :=
  let i := sortSearch p.ph.nCell (fun j => decide (key ≤ (p.cells j).key))
  if p.ph.flag = INTERPAGE then
    ⟨some (p.cells i).ptr, true⟩
  else
    if i ≤ p.ph.nCell ∧ (p.cells i).key = key then
      ⟨some (p.cells i).ptr, true⟩
    else
      ⟨none, false⟩

/-- Modelled from the spec: the interior-page descent rule of §4.3
("binary-search for the smallest `i` with `cell[i].key > key` (strict);
if `i == nCell`, descend through the rightmost child; else through
`cell[i].child_pgno`").  Stated only to compare with the source's
`MemPage.find`; the rightmost child is the header field at offset 8. -/
def interiorDescendSpec (p : MemPage) (key : Nat) : Nat :=
  let i := sortSearch p.ph.nCell (fun j => decide (key < (p.cells j).key))
  if i = p.ph.nCell then p.ph.parent else (p.cells i).ptr

/-- Result of `Search`: the source returns `(offset-or-nil, *MemPage)`. -/
structure SearchRes where
  offset : Option Nat
  page : MemPage

/-- The loop of `(bptree *BPlusTree) Search(key)`: switch on the current
page's flag; a leaf answers from `find`, an interior page descends through
`bptree.hm[pgno]` with the pointer returned by `find`, any other flag hits
`panic("no such flag!")` (rendered as `Except.error`).  `fuel` bounds the
unboundedly looping source `for`. -/
def searchLoop (t : BPlusTree) (key : Nat) : MemPage → Nat → Except String SearchRes
  | _, 0 => .error "nontermination"
  | curr, fuel + 1 =>
    if curr.ph.flag = LEAFPAGE then
      let r := curr.find key
      if r.ok then .ok ⟨r.ptr, curr⟩ else .ok ⟨none, curr⟩
    else
      if curr.ph.flag = INTERPAGE then
        let r := curr.find key
        searchLoop t key (t.hm (r.ptr.getD 0)) fuel
      else
        .error "no such flag!"

/-- `(bptree *BPlusTree) Search(key)` of `bplustree.go`: start the loop at
the root page. -/
def BPlusTree.Search (t : BPlusTree) (key : Nat) (fuel : Nat) : Except String SearchRes :=
  searchLoop t key t.page fuel

/-- Data handed to `insert`/`full` (the source passes `interface{}` holding
either a `*Cell` or a payload). -/
inductive InsData where
  | cell (c : Cell)
  | pl (p : Payload)

/-- `size(Cell)`: a `Cell` is two 32-bit words, 8 bytes. -/
def size_Cell : Nat := 8

/-- `(p *MemPage) full(data)` of `bplustree.go`: a `*Cell` is only
admitted on an `INTERPAGE` and a payload only on a `LEAFPAGE`, anything
else is `panic("full error")` (rendered as `Except.error`).  The admitted
case returns `p.ph.nFree > pl.size + size(Cell)`.  In the `*Cell` branch
the source reads `pl.size` although no `pl` is declared there; the cell's
own byte size is used for it, which no theorem below depends on (every
run below that enters the `*Cell` branch does so on a non-interior page
and panics before the comparison). -/
def MemPage.full (p : MemPage) : InsData → Except String Bool
  | .cell _ =>
    if p.ph.flag = INTERPAGE then
      .ok (decide (p.ph.nFree > size_Cell + size_Cell))
    else
      .error "full error"
  | .pl pl =>
    if p.ph.flag = LEAFPAGE then
      .ok (decide (p.ph.nFree > pl.size + size_Cell))
    else
      .error "full error"

/-- The zero-valued `&MemPage{}` the source allocates (`newpage()` and the
root-split branch): flag 0 (= `LEAFPAGE`), all counters 0, zeroed buffer. -/
def blankPage : MemPage :=
  { ph := { flag := 0, freeOffset := 0, nCell := 0, pgno := 0, nFree := 0, parent := 0 }
    cells := fun _ => ⟨0, 0⟩ }

/-- Outcome of the lower-case `insert` method: the source returns
`(true, nil, nil)` or `(false, key, newpg)`. -/
inductive InsOutcome where
  | fitted
  | split (key : Nat) (newpg : MemPage)

/-- `(p *MemPage) insert(data)` of `bplustree.go`, verbatim in structure:
`ok := p.full(data); if !ok { return true, nil, nil }` — the page body is
never written in this path — otherwise the split path runs, whose body is
commented out in the source (`//key, newpg := split(pg)`): it allocates
`newpg := newpage()` and returns `(false, key, newpg)` with `key` never
assigned (it is rendered as 0) and with no cell ever moved or stored. -/
def MemPage.insert (p : MemPage) (data : InsData) : Except String InsOutcome := do
  let ok ← p.full data
  if !ok then
    return .fitted
  return .split 0 blankPage

/-- `(p *MemPage) parent()` of `bplustree.go`: it returns `p.ph.pgno`,
the page's own number field, not `p.ph.parent`. -/
def MemPage.parentPgno (p : MemPage) : Nat :=
  p.ph.pgno

/-- The `for` loop of `(bptree *BPlusTree) Insert`, lines 117–135 of
`bplustree.go`: insert the separator cell into `ppg`; on `ok` return the
tree; otherwise, if `ppg` is the current root, allocate a zero
`&MemPage{}` as the new root, re-point `bptree.page` at it and insert two
cells `(key, newpg.pgno)` and `(key, ppg.pgno)` into it (each of those
`insert` calls panics inside `full` because the zero page's flag is
`LEAFPAGE`, not `INTERPAGE`); otherwise continue at `bptree.hm[ppg.parent()]`. -/
def propagate (t : BPlusTree) (key : Nat) (newpg : MemPage) :
    MemPage → Nat → Except String BPlusTree
  | _, 0 => .error "nontermination"
  | ppg, fuel + 1 => do
    let out ← ppg.insert (.cell ⟨newpg.ph.pgno, key⟩)
    match out with
    | .fitted => return t
    | .split key' newpg' =>
      if ppg.ph.pgno = t.page.ph.pgno then do
        let rootpage := blankPage
        let t' := { t with page := rootpage }
        let _ ← rootpage.insert (.cell ⟨newpg'.ph.pgno, key'⟩)
        let _ ← rootpage.insert (.cell ⟨ppg.ph.pgno, key'⟩)
        return t'
      else
        propagate t key' newpg' (t.hm ppg.parentPgno) fuel

/-- `(bptree *BPlusTree) Insert(pl)` of `bplustree.go`: `Search` the key
and return the tree unchanged when the key is found (`offset != nil`);
otherwise run the leaf-level `insert` (which never writes the payload)
and, when it reports a split, run the propagation loop starting at
`bptree.hm[pg.parent()]`. -/
def BPlusTree.Insert (t : BPlusTree) (pl : Payload) (fuel : Nat) : Except String BPlusTree := do
  let sr ← t.Search pl.key fuel
  if sr.offset.isSome then
    return t
  else
    let out ← sr.page.insert (.pl pl)
    match out with
    | .fitted => return t
    | .split key newpg => propagate t key newpg (t.hm sr.page.parentPgno) fuel

/-! ### Concrete pages and trees used to evaluate the code -/

/-- An empty root leaf: page 1 of a freshly created database, no cells,
zeroed buffer, `nFree = 0` as in the zero-initialized page header. -/
def emptyRootLeaf : MemPage :=
  { ph := { flag := LEAFPAGE, freeOffset := 0, nCell := 0, pgno := 1, nFree := 0, parent := 0 }
    cells := fun _ => ⟨0, 0⟩ }

/-- The empty tree: root is the empty leaf; the page map holds only it. -/
def emptyTree : BPlusTree :=
  { page := emptyRootLeaf, hm := fun _ => emptyRootLeaf }

/-- The payload `(key 42, one value 7)`. -/
def pl42 : Payload := { key := 42, size := 1, entrys := [7] }

/-- Interior page with the single cell `(key 5, child 2)` and rightmost
child 3 in the offset-8 header field. -/
def interEx : MemPage :=
  { ph := { flag := INTERPAGE, freeOffset := 0, nCell := 1, pgno := 1, nFree := 0, parent := 3 }
    cells := fun j => if j = 0 then ⟨2, 5⟩ else ⟨0, 0⟩ }

/-- Leaf with one cell `(ptr 9, key 5)`; the buffer beyond the
cell-pointer array happens to hold zero bytes. -/
def leafC : MemPage :=
  { ph := { flag := LEAFPAGE, freeOffset := 0, nCell := 1, pgno := 4, nFree := 0, parent := 1 }
    cells := fun j => if j = 0 then ⟨9, 5⟩ else ⟨13, 8⟩ }

/-- Leaf with one cell `(ptr 9, key 5)`; the bytes past the cell-pointer
array read as `(0, 0)`. -/
def leafA : MemPage :=
  { ph := { flag := LEAFPAGE, freeOffset := 0, nCell := 1, pgno := 6, nFree := 0, parent := 1 }
    cells := fun j => if j = 0 then ⟨9, 5⟩ else ⟨0, 0⟩ }

/-- The same logical leaf as `leafA` (same header, same single cell), but
the bytes past the cell-pointer array read as `(11, 7)`. -/
def leafB : MemPage :=
  { ph := { flag := LEAFPAGE, freeOffset := 0, nCell := 1, pgno := 6, nFree := 0, parent := 1 }
    cells := fun j => if j = 0 then ⟨9, 5⟩ else ⟨11, 7⟩ }

/-- Interior root of the two-leaf tree `treeS8`: single separator cell
`(key 42, left child 2)`, rightmost child 3. -/
def rootS8 : MemPage :=
  { ph := { flag := INTERPAGE, freeOffset := 0, nCell := 1, pgno := 1, nFree := 0, parent := 3 }
    cells := fun j => if j = 0 then ⟨2, 42⟩ else ⟨0, 0⟩ }

/-- Left leaf (page 2) of `treeS8`: one cell with key 10, ample free
space (`nFree = 100`). -/
def leafS8L : MemPage :=
  { ph := { flag := LEAFPAGE, freeOffset := 0, nCell := 1, pgno := 2, nFree := 100, parent := 1 }
    cells := fun j => if j = 0 then ⟨5, 10⟩ else ⟨0, 0⟩ }

/-- Right leaf (page 3) of `treeS8`: the single pair `(key 42, value 7)`
stored as the cell `(ptr 7, key 42)`. -/
def leafS8R : MemPage :=
  { ph := { flag := LEAFPAGE, freeOffset := 0, nCell := 1, pgno := 3, nFree := 100, parent := 1 }
    cells := fun j => if j = 0 then ⟨7, 42⟩ else ⟨0, 0⟩ }

/-- A well-formed two-level tree containing the pair `(42, 7)`: interior
root `rootS8` over left leaf `leafS8L` (keys `< 42`) and rightmost leaf
`leafS8R` (keys `≥ 42`), satisfying the spec's key-range invariant. -/
def treeS8 : BPlusTree :=
  { page := rootS8
    hm := fun n => if n = 2 then leafS8L else if n = 3 then leafS8R else rootS8 }

/-- Interior root used to exercise the root-split branch of `Insert`:
plenty of free space so that the propagation step takes the split path. -/
def rootS2 : MemPage :=
  { ph := { flag := INTERPAGE, freeOffset := 0, nCell := 1, pgno := 1, nFree := 100, parent := 3 }
    cells := fun j => if j = 0 then ⟨2, 40⟩ else ⟨0, 0⟩ }

/-- Tree whose root is `rootS2`. -/
def treeS2 : BPlusTree :=
  { page := rootS2, hm := fun _ => rootS2 }

end BT

/-! ### Claims about the B+tree engine -/

/-- C1: on the empty tree, inserting the distinct pair `(42, 7)` must make
`search(42)` return `Some`.  On the code it does not: `Insert` completes
normally but leaves the tree unchanged (the leaf-level `insert` never
writes the payload into the page), and the subsequent `Search 42` still
reports a miss (`offset = none`). -/
theorem C1_insert_then_search_misses :
    BT.BPlusTree.Insert BT.emptyTree BT.pl42 5 = Except.ok BT.emptyTree ∧
    (BT.BPlusTree.Search BT.emptyTree 42 5).map (fun r => r.offset) = Except.ok none :=
  ⟨rfl, rfl⟩

/-- C2: when split propagation reaches the root and the root splits, the
claim requires a new interior (flag `0x01`) root with exactly one cell
`(separator, old_root)` and rightmost child the new right sibling.  The
code's root-split branch instead allocates the zero page `&MemPage{}`
(whose flag is `LEAFPAGE`, not `INTERPAGE`), attempts to insert two cells
carrying the same key, and the first of those `insert` calls panics with
"full error" because `full` rejects a `*Cell` on a non-interior page. -/
theorem C2_root_split_panics :
    BT.propagate BT.treeS2 9 BT.blankPage BT.rootS2 3 = Except.error "full error" ∧
    BT.blankPage.ph.flag = BT.LEAFPAGE ∧ BT.LEAFPAGE ≠ BT.INTERPAGE :=
  ⟨rfl, rfl, by decide⟩

/-- C3: at the interior page with single cell `(key 5, child 2)` and
rightmost child 3, searching key 5 must (per the claim's strict
comparison) descend through the rightmost child 3; the code's `find` uses
the non-strict `cell[i].key >= key`, returns the smallest such `i = 0`
and descends through `cell[0].ptr = 2` — the subtree that holds only keys
strictly below 5 — and never consults the rightmost-child field. -/
theorem C3_interior_descends_left_on_equal_key :
    BT.MemPage.find BT.interEx 5 = ⟨some 2, true⟩ ∧
    BT.interiorDescendSpec BT.interEx 5 = 3 ∧ (2 : Nat) ≠ 3 :=
  ⟨rfl, rfl, by decide⟩

/-- C4: on a leaf whose only cell has key 5, searching key 8 must report a
miss (no index `i < nCell` has `cell[i].key = 8`).  The code's guard
`i <= nCell` (instead of `i < nCell`) lets `i = nCell` through, the slot
one past the cell-pointer array is read, and here its residual bytes
`(13, 8)` produce a spurious hit `(some 13, true)`. -/
theorem C4_leaf_hit_beyond_nCell :
    BT.MemPage.find BT.leafC 8 = ⟨some 13, true⟩ ∧
    ∀ j < BT.leafC.ph.nCell, (BT.leafC.cells j).key ≠ 8 :=
  ⟨rfl, by decide⟩

/-- C9: `find` must touch only slots in `[0, nCell)`, so its result may
depend only on those slots.  `leafA` and `leafB` agree on the header and
on every slot below `nCell` and differ only in the bytes at slot `nCell`
(beyond the cell-pointer array), yet `find` answers differently on them
(a miss versus a spurious hit): the code reads the slot at index `nCell`. -/
theorem C9_find_depends_on_out_of_range_slot :
    BT.leafA.ph = BT.leafB.ph ∧
    (∀ j < BT.leafA.ph.nCell, BT.leafA.cells j = BT.leafB.cells j) ∧
    BT.MemPage.find BT.leafA 7 ≠ BT.MemPage.find BT.leafB 7 :=
  ⟨rfl, by decide, by decide⟩

/-- C8: inserting a pair that the tree already contains must be a no-op.
`treeS8` is a well-formed two-level tree that stores the pair `(42, 7)` in
its rightmost leaf (page 3), yet `Insert (42, [7])` is not a no-op: the
non-strict interior descent sends the search into the left leaf, the key
is not found there, the leaf-level `insert` reports a split (the left
leaf has free space, and the source's space test is inverted), and the
propagation loop — restarted at `hm[pg.parent()]` where `parent()`
returns the page's own number — panics with "full error" instead of
returning the tree unchanged. -/
theorem C8_insert_existing_pair_not_noop :
    BT.rootS8.ph.parent = 3 ∧ BT.treeS8.hm 3 = BT.leafS8R ∧
    0 < BT.leafS8R.ph.nCell ∧ BT.leafS8R.cells 0 = ⟨7, 42⟩ ∧
    BT.BPlusTree.Insert BT.treeS8 BT.pl42 5 = Except.error "full error" :=
  ⟨rfl, rfl, by decide, rfl, rfl⟩

/-!
## The page cache, hash-table / fetch subsystem (`cache.go`)

`apHash` with its `pNext` chains is modelled as a total function from
bucket index to the chain, rendered as a list.  The source's LRU list is
referenced in `FetchPage` (as `pGroup.lru.pLruPrev`, the list tail) but
never maintained anywhere in `cache.go`; the tail pointer is modelled as
the state field `lruTail`.  `PgHdr` carries its key and — because
`MakeDirty`/`MakeClean` in the same file address a `flags` word on page
headers — the dirty bit relevant to claim C5; `FetchPage` never consults
it, exactly like the source.
-/

namespace Cache

/-- The cache entry fields read by the fetch/hash code: the page number
and the dirty bit of the entry's flags word. -/
structure PgHdr where
  iKey : Nat
  dirtyFlag : Bool
  deriving DecidableEq

/-- `PCache` of `cache.go`, restricted to the fields the fetch/hash code
touches.  `lruTail` stands for the source's `pGroup.lru.pLruPrev`. -/
structure PCache where
  nPage : Nat
  nHash : Nat
  nMax : Nat
  apHash : Nat → List PgHdr
  lruTail : Option PgHdr
  pFree : List PgHdr
  iMaxKey : Nat

/-- Replace one hash bucket. -/
def bucketSet (t : Nat → List PgHdr) (h : Nat) (l : List PgHdr) : Nat → List PgHdr :=
  fun j => if j = h then l else t j

/-- Step 1 of `FetchPage`: walk the chain of `apHash[iKey % nHash]`
looking for the entry with the wanted key. -/
def lookup (c : PCache) (iKey : Nat) : Option PgHdr :=
  (c.apHash (iKey % c.nHash)).find? (fun p => p.iKey = iKey)

/-- The new table size computed at the top of `ResizeHash`:
`nNew := nHash*2; if nNew < 256 { nNew = 256 }`. -/
def newHashSize (nHash : Nat) : Nat :=
  if nHash * 2 < 256 then 256 else nHash * 2

/-- One step of the rehash loop body of `ResizeHash`: link the entry at
the head of `apNew[iKey % nNew]`. -/
def rehashStep (nNew : Nat) (t : Nat → List PgHdr) (p : PgHdr) : Nat → List PgHdr :=
  bucketSet t (p.iKey % nNew) (p :: t (p.iKey % nNew))

/-- `ResizeHash` of `cache.go`: `nNew := nHash*2`, raised to 256 when
below it; every chain of the old table is walked front to back and each
entry is linked at the head of `apNew[iKey % nNew]`. -/
def ResizeHash (c : PCache) : PCache :=
  { c with
      apHash :=
        (List.range c.nHash).foldl
          (fun t i => (c.apHash i).foldl (rehashStep (newHashSize c.nHash)) t)
          (fun _ => [])
      nHash := newHashSize c.nHash }

/-- `RemoveFromHash` of `cache.go`: unlink the entry from its chain,
decrement `nPage`, and hand the entry to `FreePage` (which pushes it onto
`pFree`). -/
def RemoveFromHash (c : PCache) (p : PgHdr) : PCache :=
  let h := p.iKey % c.nHash
  { c with
      apHash := bucketSet c.apHash h ((c.apHash h).erase p)
      nPage := c.nPage - 1
      pFree := p :: c.pFree }

/-- `AllocPage` of `cache.go`: pop the free list if non-empty, otherwise
heap-allocate a fresh header (the source's `malloc` path, which never
fails there). -/
def AllocPage (c : PCache) : PgHdr × PCache :=
  match c.pFree with
  | p :: rest => (p, { c with pFree := rest })
  | [] => ({ iKey := 0, dirtyFlag := false }, c)

/-- `FetchPage` of `cache.go`, step for step:

1. hash lookup; a hit returns the entry with the cache unchanged;
2. if `nPage >= nHash`, `ResizeHash`;
3. if `nPage+1 >= nMax`, recycle: take the LRU tail
   (`pGroup.lru.pLruPrev`) and `RemoveFromHash` it — with no check of the
   entry's dirty bit and no failure path;
4. if no page yet, `AllocPage`;
5. install: set the key, bump `nPage`, link at the head of the bucket,
   raise `iMaxKey`.

The source has no `CacheFull` (or any other) failure exit.  Steps 3–5
(run only on a lookup miss, after the optional resize) are split into
`fetchStage2` so they can be reasoned about on their own. -/
def fetchStage2 (c : PCache) (iKey : Nat) : Option PgHdr × PCache :=
  let (pPage?, c) :=
    if c.nPage + 1 ≥ c.nMax then
      match c.lruTail with
      | some p => (some p, RemoveFromHash c p)
      | none => (none, c)
    else (none, c)
  let (pPage?, c) :=
    match pPage? with
    | some p => (some p, c)
    | none =>
      let (p, c) := AllocPage c
      (some p, c)
  match pPage? with
  | some p =>
    let p := { p with iKey := iKey }
    let h := iKey % c.nHash
    let c :=
      { c with
          nPage := c.nPage + 1
          apHash := bucketSet c.apHash h (p :: c.apHash h)
          iMaxKey := max c.iMaxKey iKey }
    (some p, c)
  | none => (none, c)

/-- `FetchPage` of `cache.go`: step 1 (lookup, returning on a hit),
step 2 (resize if `nPage ≥ nHash`), then steps 3–5 (`fetchStage2`). -/
def FetchPage (c : PCache) (iKey : Nat) : Option PgHdr × PCache :=
  match lookup c iKey with
  | some p => (some p, c)
  | none =>
    let c := if c.nPage ≥ c.nHash then ResizeHash c else c
    fetchStage2 c iKey

/-- The dirty LRU-tail entry of the cache state `cacheS5`. -/
def e5 : PgHdr := { iKey := 5, dirtyFlag := true }

/-- Cache state for claim C5: capacity `nMax = 2`, one resident entry
(`nPage = 1`), the resident entry `e5` is the LRU tail and is dirty. -/
def cacheS5 : PCache :=
  { nPage := 1
    nHash := 256
    nMax := 2
    apHash := fun h => if h = 5 then [e5] else []
    lruTail := some e5
    pFree := []
    iMaxKey := 5 }

/-- Cache state for claim C6: `nHash = 256` and 256 resident entries,
entry `i` (with key `i`) alone in bucket `i`. -/
def cacheS6 : PCache :=
  { nPage := 256
    nHash := 256
    nMax := 1000
    apHash := fun h => if h < 256 then [{ iKey := h, dirtyFlag := false }] else []
    lruTail := none
    pFree := []
    iMaxKey := 255 }

/-! Rehash membership lemmas: every entry of the old table lands in the
bucket of its own key in the new table. -/

theorem rehashStep_preserves {m : Nat} {t : Nat → List PgHdr} {q p : PgHdr}
    (hp : p ∈ t (p.iKey % m)) : p ∈ rehashStep m t q (p.iKey % m) := by
  unfold rehashStep bucketSet
  by_cases h : p.iKey % m = q.iKey % m
  · rw [if_pos h]
    exact List.mem_cons_of_mem _ (h ▸ hp)
  · rw [if_neg h]
    exact hp

theorem foldl_rehashStep_preserves {m : Nat} {p : PgHdr} (L : List PgHdr)
    {t : Nat → List PgHdr} (hp : p ∈ t (p.iKey % m)) :
    p ∈ (L.foldl (rehashStep m) t) (p.iKey % m) := by
  induction L generalizing t with
  | nil => exact hp
  | cons q L ih => exact ih (rehashStep_preserves hp)

theorem foldl_rehashStep_inserts {m : Nat} {p : PgHdr} (L : List PgHdr)
    {t : Nat → List PgHdr} (hp : p ∈ L) :
    p ∈ (L.foldl (rehashStep m) t) (p.iKey % m) := by
  induction L generalizing t with
  | nil => cases hp
  | cons q L ih =>
    rcases List.mem_cons.mp hp with h | h
    · subst h
      refine foldl_rehashStep_preserves L ?_
      unfold rehashStep bucketSet
      rw [if_pos rfl]
      exact List.mem_cons_self _ _
    · exact ih h

theorem foldl_buckets_preserves {m : Nat} (f : Nat → List PgHdr) (I : List Nat)
    {t : Nat → List PgHdr} {p : PgHdr} (hp : p ∈ t (p.iKey % m)) :
    p ∈ (I.foldl (fun t i => (f i).foldl (rehashStep m) t) t) (p.iKey % m) := by
  induction I generalizing t with
  | nil => exact hp
  | cons j I ih => exact ih (foldl_rehashStep_preserves (f j) hp)

theorem foldl_buckets_inserts {m : Nat} (f : Nat → List PgHdr) (I : List Nat)
    {t : Nat → List PgHdr} {p : PgHdr} {i : Nat} (hi : i ∈ I) (hp : p ∈ f i) :
    p ∈ (I.foldl (fun t i => (f i).foldl (rehashStep m) t) t) (p.iKey % m) := by
  induction I generalizing t with
  | nil => cases hi
  | cons j I ih =>
    rcases List.mem_cons.mp hi with h | h
    · subst h
      exact foldl_buckets_preserves f I (foldl_rehashStep_inserts (f i) hp)
    · exact ih h

/-- Chain membership after `ResizeHash`: an entry found in any bucket of
the old table is in the bucket of its own key in the new table. -/
theorem ResizeHash_mem (c : PCache) (p : PgHdr) (i : Nat)
    (hi : i < c.nHash) (hp : p ∈ c.apHash i) :
    p ∈ (ResizeHash c).apHash (p.iKey % (ResizeHash c).nHash) :=
  foldl_buckets_inserts c.apHash (List.range c.nHash) (List.mem_range.mpr hi) hp

/-- Steps 3–5 of `FetchPage` never touch the table size. -/
theorem fetchStage2_nHash (c : PCache) (k : Nat) :
    ((fetchStage2 c k).2).nHash = c.nHash := by
  unfold fetchStage2
  by_cases h1 : c.nPage + 1 ≥ c.nMax
  · rw [if_pos h1]
    cases h2 : c.lruTail with
    | some p => simp [RemoveFromHash]
    | none => cases h3 : c.pFree <;> simp [AllocPage, h3]
  · rw [if_neg h1]
    cases h3 : c.pFree <;> simp [AllocPage, h3]

/-- On a lookup miss with `nPage ≥ nHash`, the fetch resizes the table:
the resulting table size is `newHashSize nHash`. -/
theorem FetchPage_miss_nHash (c : PCache) (k : Nat)
    (hmiss : lookup c k = none) (hgrow : c.nPage ≥ c.nHash) :
    (FetchPage c k).2.nHash = newHashSize c.nHash := by
  unfold FetchPage
  rw [hmiss, if_pos hgrow, fetchStage2_nHash]
  rfl

theorem find?_isSome_of_mem {p : PgHdr} {l : List PgHdr} {k : Nat}
    (hp : p ∈ l) (hk : p.iKey = k) : (l.find? (fun q => q.iKey = k)).isSome := by
  induction l with
  | nil => cases hp
  | cons q l ih =>
    by_cases h : q.iKey = k
    · simp [List.find?, h]
    · rcases List.mem_cons.mp hp with rfl | hmem
      · exact absurd hk h
      · simpa [List.find?, h] using ih hmem

end Cache

/-! ### Claims about the fetch/hash subsystem -/

/-- C5: the claim allows recycling only when `nPage + 1 > nMax` and
demands that a dirty LRU tail fail the fetch with CacheFull.  In
`cacheS5`, `nPage + 1 = nMax` (so the claim forbids recycling), the LRU
tail `e5` is dirty, and yet `FetchPage` recycles it: the fetch succeeds
(there is no failure path in the source), `e5` is removed from its hash
bucket and pushed onto the free list with no write-back of any kind. -/
theorem C5_fetch_recycles_dirty_tail :
    Cache.cacheS5.nPage + 1 = Cache.cacheS5.nMax ∧
    ¬(Cache.cacheS5.nPage + 1 > Cache.cacheS5.nMax) ∧
    Cache.cacheS5.lruTail = some Cache.e5 ∧
    Cache.e5.dirtyFlag = true ∧
    (Cache.FetchPage Cache.cacheS5 7).1.isSome = true ∧
    (Cache.FetchPage Cache.cacheS5 7).2.apHash 5 = [] ∧
    (Cache.FetchPage Cache.cacheS5 7).2.pFree = [Cache.e5] :=
  ⟨rfl, by decide, rfl, rfl, rfl, rfl, rfl⟩

/-- C6 (counterexample to the claim as stated): in `cacheS6` the fetch of
key 0 arrives with `nPage ≥ nHash`, but because the hash lookup hits,
`FetchPage` returns at step 1 and `ResizeHash` is not invoked — `nHash`
stays 256 instead of doubling to 512, and the cache state is unchanged. -/
theorem C6_hit_fetch_skips_resize :
    Cache.cacheS6.nPage ≥ Cache.cacheS6.nHash ∧
    (Cache.FetchPage Cache.cacheS6 0).2 = Cache.cacheS6 ∧
    (Cache.FetchPage Cache.cacheS6 0).2.nHash = 256 ∧
    (Cache.FetchPage Cache.cacheS6 0).2.nHash ≠ 2 * Cache.cacheS6.nHash :=
  ⟨by decide, rfl, rfl, by decide⟩

/-- C6 (amended): on a fetch that misses the hash lookup, `ResizeHash`
runs whenever `nPage ≥ nHash` at that point and the fetched state carries
the new table size; the new size is `max(2·nHash, 256)` (at least 256,
and exactly double from 128 up); and rehashing preserves membership —
every entry resident in any bucket of the old table is reachable
afterwards by a hash lookup of its page number. -/
theorem C6_resize_on_miss_doubles_and_preserves :
    (∀ (c : Cache.PCache) (k : Nat), Cache.lookup c k = none → c.nPage ≥ c.nHash →
      (Cache.FetchPage c k).2.nHash = Cache.newHashSize c.nHash) ∧
    (∀ n : Nat, 256 ≤ Cache.newHashSize n) ∧
    (∀ n : Nat, 128 ≤ n → Cache.newHashSize n = 2 * n) ∧
    (∀ (c : Cache.PCache) (i : Nat) (p : Cache.PgHdr), i < c.nHash → p ∈ c.apHash i →
      (((Cache.ResizeHash c).apHash (p.iKey % (Cache.ResizeHash c).nHash)).find?
        (fun q => q.iKey = p.iKey)).isSome) := by
  refine ⟨?_, ?_, ?_, ?_⟩
  · exact Cache.FetchPage_miss_nHash
  · intro n
    unfold Cache.newHashSize
    split
    · exact Nat.le_refl 256
    · omega
  · intro n hn
    unfold Cache.newHashSize
    rw [if_neg (by omega)]
    omega
  · intro c i p hi hp
    exact Cache.find?_isSome_of_mem (Cache.ResizeHash_mem c p i hi hp) rfl

/-- Witness for `C6_resize_on_miss_doubles_and_preserves`: the miss-fetch
of key 999 on `cacheS6` (where `nPage = nHash = 256`) ends with
`nHash = 512`, and the entry with key 5 is still reachable by lookup
after the resize. -/
theorem C6_resize_witness :
    (Cache.FetchPage Cache.cacheS6 999).2.nHash = Cache.newHashSize 256 ∧
    (((Cache.ResizeHash Cache.cacheS6).apHash
        (5 % (Cache.ResizeHash Cache.cacheS6).nHash)).find?
      (fun q => q.iKey = 5)).isSome :=
  ⟨C6_resize_on_miss_doubles_and_preserves.1 Cache.cacheS6 999 rfl (by decide),
   C6_resize_on_miss_doubles_and_preserves.2.2.2 Cache.cacheS6 5
     ⟨5, false⟩ (by decide) (by decide)⟩

/-!
## The page cache, dirty-list subsystem (`cache.go`)

`ManageDirtyList`, `MakeDirty`, `MakeClean` and `MakeCleanAll` mutate
page headers in place through `pDirtyNext`/`pDirtyPrev` pointers.  Page
headers are therefore addressed by identity: the cache state holds a
total function from entry id to header, and every pointer-field write of
the source becomes a `setEnt` at the written entry's id, re-reading the
fields exactly where the source re-reads them.  The `flags` word of a
header (the source uses the bits `PGHDR_CLEAN`, `PGHDR_DIRTY`,
`PGHDR_NEED_SYNC`, `PGHDR_WRITEABLE`, which `cache.go` leaves undeclared)
is modelled as a record of the four named bits; the source's
`flags ^= (PGHDR_DIRTY|PGHDR_CLEAN)` flips the two bits, `flags &=
^(PGHDR_DIRTY|PGHDR_NEED_SYNC|PGHDR_WRITEABLE)` clears three, `flags |=
PGHDR_CLEAN` sets one.  `univ` lists the entry ids that belong to the
cache; the operations never read it.
-/

namespace Dirty

/-- `PCACHE_DIRTYLIST_REMOVE` of `cache.go`. -/
def PCACHE_DIRTYLIST_REMOVE : Nat := 1

/-- `PCACHE_DIRTYLIST_ADD` of `cache.go`. -/
def PCACHE_DIRTYLIST_ADD : Nat := 2

/-- `PCACHE_DIRTYLIST_FRONT` of `cache.go`. -/
def PCACHE_DIRTYLIST_FRONT : Nat := 3

/-- The four flag bits carried by a page header. -/
structure PgFlags where
  clean : Bool
  dirty : Bool
  needSync : Bool
  writeable : Bool
  deriving DecidableEq

/-- The fields of `PgHdr` touched by the dirty-list code. -/
structure PgHdr where
  flags : PgFlags
  pDirtyNext : Option Nat
  pDirtyPrev : Option Nat
  deriving DecidableEq

/-- The dirty-list state of a `PCache`: the headers (by entry id), the
head `pDirty`, the tail `pDirtyTail`, and the ids that belong to the
cache. -/
structure PCache where
  ent : Nat → PgHdr
  pDirty : Option Nat
  pDirtyTail : Option Nat
  univ : List Nat

/-- Write one entry's header. -/
def setEnt (s : PCache) (i : Nat) (e : PgHdr) : PCache :=
  { s with ent := fun j => if j = i then e else s.ent j }

/-- First statement pair of the `PCACHE_DIRTYLIST_REMOVE` half of
`ManageDirtyList`:

```
if pPage.pDirtyNext != nil { pPage.pDirtyNext.pDirtyPrev = pPage.pDirtyPrev }
else                       { pCache.pDirtyTail = pPage.pDirtyPrev }
``` -/
def removeFixNext (s : PCache) (i : Nat) : PCache :=
  match (s.ent i).pDirtyNext with
  | some nx => setEnt s nx { s.ent nx with pDirtyPrev := (s.ent i).pDirtyPrev }
  | none => { s with pDirtyTail := (s.ent i).pDirtyPrev }

/-- Second statement pair of the `PCACHE_DIRTYLIST_REMOVE` half of
`ManageDirtyList`, reading the then-current state `s1`:

```
if pPage.pDirtyPrev != nil { pPage.pDirtyPrev.pDirtyNext = pPage.pDirtyNext }
else                       { pCache.pDirty = pPage.pDirtyNext }
``` -/
def removeFixPrev (s1 : PCache) (i : Nat) : PCache :=
  match (s1.ent i).pDirtyPrev with
  | some pv => setEnt s1 pv { s1.ent pv with pDirtyNext := (s1.ent i).pDirtyNext }
  | none => { s1 with pDirty := (s1.ent i).pDirtyNext }

/-- The `PCACHE_DIRTYLIST_REMOVE` half of `ManageDirtyList`: the two
statement pairs above followed by

```
pPage.pDirtyNext = 0
pPage.pDirtyPrev = 0
``` -/
def dirtyRemove (s : PCache) (i : Nat) : PCache :=
  setEnt (removeFixPrev (removeFixNext s i) i) i
    { (removeFixPrev (removeFixNext s i) i).ent i with
        pDirtyNext := none, pDirtyPrev := none }

/-- First statement of the `PCACHE_DIRTYLIST_ADD` half of
`ManageDirtyList`: `pPage.pDirtyNext = pCache.pDirty`. -/
def addSetNext (s : PCache) (i : Nat) : PCache :=
  setEnt s i { s.ent i with pDirtyNext := s.pDirty }

/-- Second statement pair of the `PCACHE_DIRTYLIST_ADD` half of
`ManageDirtyList`:

```
if pPage.pDirtyNext != nil { pPage.pDirtyNext.pDirtyPrev = pPage }
else                       { pCache.pDirtyTail = pPage }
``` -/
def addFixPrev (s1 : PCache) (i : Nat) : PCache :=
  match (s1.ent i).pDirtyNext with
  | some nx => setEnt s1 nx { s1.ent nx with pDirtyPrev := some i }
  | none => { s1 with pDirtyTail := some i }

/-- The `PCACHE_DIRTYLIST_ADD` half of `ManageDirtyList`: the statements
above followed by `pCache.pDirty = pPage`. -/
def dirtyAdd (s : PCache) (i : Nat) : PCache :=
  { addFixPrev (addSetNext s i) i with pDirty := some i }

/-- `ManageDirtyList` of `cache.go`: bit `0x01` removes, bit `0x02` adds. -/
def ManageDirtyList (s : PCache) (i : Nat) (addRemove : Nat) : PCache :=
  let s := if addRemove &&& PCACHE_DIRTYLIST_REMOVE ≠ 0 then dirtyRemove s i else s
  if addRemove &&& PCACHE_DIRTYLIST_ADD ≠ 0 then dirtyAdd s i else s

/-- `MakeDirty` of `cache.go`: when the `CLEAN` bit is set, flip the
`DIRTY` and `CLEAN` bits (`flags ^= (PGHDR_DIRTY|PGHDR_CLEAN)`) and add
to the dirty list. -/
def MakeDirty (s : PCache) (i : Nat) : PCache :=
  if (s.ent i).flags.clean then
    let e := s.ent i
    let s1 := setEnt s i
      { e with flags := { e.flags with clean := !e.flags.clean, dirty := !e.flags.dirty } }
    ManageDirtyList s1 i PCACHE_DIRTYLIST_ADD
  else s

/-- `MakeClean` of `cache.go`: when the `DIRTY` bit is set, remove from
the dirty list, clear `DIRTY|NEED_SYNC|WRITEABLE`, set `CLEAN`. -/
def MakeClean (s : PCache) (i : Nat) : PCache :=
  if (s.ent i).flags.dirty then
    let s1 := ManageDirtyList s i PCACHE_DIRTYLIST_REMOVE
    let f := (s1.ent i).flags
    setEnt s1 i
      { s1.ent i with
          flags := { f with dirty := false, needSync := false, writeable := false, clean := true } }
  else s

/-- `MakeCleanAll` of `cache.go`: `for pCache.pDirty != 0 { MakeClean(pCache.pDirty) }`.
`fuel` bounds the source's unbounded loop; under the dirty-list invariant
the length of the dirty list suffices. -/
def MakeCleanAll (s : PCache) : Nat → PCache
  | 0 => s
  | fuel + 1 =>
    match s.pDirty with
    | none => s
    | some h => MakeCleanAll (MakeClean s h) fuel

theorem ManageDirtyList_add (s : PCache) (i : Nat) :
    ManageDirtyList s i PCACHE_DIRTYLIST_ADD = dirtyAdd s i := by
  unfold ManageDirtyList PCACHE_DIRTYLIST_ADD PCACHE_DIRTYLIST_REMOVE
  norm_num

theorem ManageDirtyList_remove (s : PCache) (i : Nat) :
    ManageDirtyList s i PCACHE_DIRTYLIST_REMOVE = dirtyRemove s i := by
  unfold ManageDirtyList PCACHE_DIRTYLIST_ADD PCACHE_DIRTYLIST_REMOVE
  norm_num

/-- Reading back through `setEnt`. -/
theorem setEnt_ent (s : PCache) (i : Nat) (e : PgHdr) (j : Nat) :
    (setEnt s i e).ent j = if j = i then e else s.ent j := rfl

theorem setEnt_pDirty (s : PCache) (i : Nat) (e : PgHdr) :
    (setEnt s i e).pDirty = s.pDirty := rfl

theorem setEnt_pDirtyTail (s : PCache) (i : Nat) (e : PgHdr) :
    (setEnt s i e).pDirtyTail = s.pDirtyTail := rfl

theorem setEnt_univ (s : PCache) (i : Nat) (e : PgHdr) :
    (setEnt s i e).univ = s.univ := rfl

/-! Projection lemmas for the two statement pairs of the REMOVE splice. -/

theorem removeFixNext_ent_i (s : PCache) (i : Nat) :
    (removeFixNext s i).ent i = s.ent i := by
  unfold removeFixNext
  cases hnx : (s.ent i).pDirtyNext with
  | none => rfl
  | some nx =>
    rw [setEnt_ent]
    by_cases h : i = nx
    · subst h
      rw [if_pos rfl]
    · rw [if_neg h]

theorem removeFixNext_flags (s : PCache) (i j : Nat) :
    ((removeFixNext s i).ent j).flags = (s.ent j).flags := by
  unfold removeFixNext
  cases hnx : (s.ent i).pDirtyNext with
  | none => rfl
  | some nx =>
    rw [setEnt_ent]
    by_cases h : j = nx
    · subst h
      rw [if_pos rfl]
    · rw [if_neg h]

theorem removeFixNext_ent_other (s : PCache) (i j : Nat)
    (hjn : (s.ent i).pDirtyNext ≠ some j) :
    (removeFixNext s i).ent j = s.ent j := by
  unfold removeFixNext
  cases hnx : (s.ent i).pDirtyNext with
  | none => rfl
  | some nx =>
    have hne : j ≠ nx := fun h => hjn (h ▸ hnx)
    rw [setEnt_ent, if_neg hne]

theorem removeFixNext_ent_nx (s : PCache) {i nx : Nat}
    (hnx : (s.ent i).pDirtyNext = some nx) :
    (removeFixNext s i).ent nx =
      { s.ent nx with pDirtyPrev := (s.ent i).pDirtyPrev } := by
  unfold removeFixNext
  simp only [hnx]
  rw [setEnt_ent, if_pos rfl]

theorem removeFixNext_pDirty (s : PCache) (i : Nat) :
    (removeFixNext s i).pDirty = s.pDirty := by
  unfold removeFixNext
  cases hnx : (s.ent i).pDirtyNext <;> rfl

theorem removeFixNext_univ (s : PCache) (i : Nat) :
    (removeFixNext s i).univ = s.univ := by
  unfold removeFixNext
  cases hnx : (s.ent i).pDirtyNext <;> rfl

theorem removeFixNext_pDirtyTail (s : PCache) (i : Nat) :
    (removeFixNext s i).pDirtyTail =
      if (s.ent i).pDirtyNext = none then (s.ent i).pDirtyPrev else s.pDirtyTail := by
  unfold removeFixNext
  cases hnx : (s.ent i).pDirtyNext with
  | none => simp
  | some nx => simp [hnx, setEnt_pDirtyTail]

theorem removeFixPrev_ent_i (s1 : PCache) (i : Nat) :
    (removeFixPrev s1 i).ent i = s1.ent i := by
  unfold removeFixPrev
  cases hpv : (s1.ent i).pDirtyPrev with
  | none => rfl
  | some pv =>
    rw [setEnt_ent]
    by_cases h : i = pv
    · subst h
      rw [if_pos rfl]
    · rw [if_neg h]

theorem removeFixPrev_flags (s1 : PCache) (i j : Nat) :
    ((removeFixPrev s1 i).ent j).flags = (s1.ent j).flags := by
  unfold removeFixPrev
  cases hpv : (s1.ent i).pDirtyPrev with
  | none => rfl
  | some pv =>
    rw [setEnt_ent]
    by_cases h : j = pv
    · subst h
      rw [if_pos rfl]
    · rw [if_neg h]

theorem removeFixPrev_ent_other (s1 : PCache) (i j : Nat)
    (hjp : (s1.ent i).pDirtyPrev ≠ some j) :
    (removeFixPrev s1 i).ent j = s1.ent j := by
  unfold removeFixPrev
  cases hpv : (s1.ent i).pDirtyPrev with
  | none => rfl
  | some pv =>
    have hne : j ≠ pv := fun h => hjp (h ▸ hpv)
    rw [setEnt_ent, if_neg hne]

theorem removeFixPrev_ent_pv (s1 : PCache) {i pv : Nat}
    (hpv : (s1.ent i).pDirtyPrev = some pv) :
    (removeFixPrev s1 i).ent pv =
      { s1.ent pv with pDirtyNext := (s1.ent i).pDirtyNext } := by
  unfold removeFixPrev
  simp only [hpv]
  rw [setEnt_ent, if_pos rfl]

theorem removeFixPrev_pDirtyTail (s1 : PCache) (i : Nat) :
    (removeFixPrev s1 i).pDirtyTail = s1.pDirtyTail := by
  unfold removeFixPrev
  cases hpv : (s1.ent i).pDirtyPrev <;> rfl

theorem removeFixPrev_univ (s1 : PCache) (i : Nat) :
    (removeFixPrev s1 i).univ = s1.univ := by
  unfold removeFixPrev
  cases hpv : (s1.ent i).pDirtyPrev <;> rfl

theorem removeFixPrev_pDirty (s1 : PCache) (i : Nat) :
    (removeFixPrev s1 i).pDirty =
      if (s1.ent i).pDirtyPrev = none then (s1.ent i).pDirtyNext else s1.pDirty := by
  unfold removeFixPrev
  cases hpv : (s1.ent i).pDirtyPrev with
  | none => simp
  | some pv => simp [hpv, setEnt_pDirty]

/-! Projection lemmas for the REMOVE splice as a whole. -/

theorem dirtyRemove_univ (s : PCache) (i : Nat) :
    (dirtyRemove s i).univ = s.univ := by
  unfold dirtyRemove
  show (removeFixPrev (removeFixNext s i) i).univ = s.univ
  rw [removeFixPrev_univ, removeFixNext_univ]

theorem dirtyRemove_flags (s : PCache) (i j : Nat) :
    ((dirtyRemove s i).ent j).flags = (s.ent j).flags := by
  unfold dirtyRemove
  rw [setEnt_ent]
  by_cases h : j = i
  · subst h
    rw [if_pos rfl]
    show ((removeFixPrev (removeFixNext s j) j).ent j).flags = _
    rw [removeFixPrev_flags, removeFixNext_flags]
  · rw [if_neg h, removeFixPrev_flags, removeFixNext_flags]

theorem dirtyRemove_ent_self (s : PCache) (i : Nat) :
    (dirtyRemove s i).ent i =
      { s.ent i with pDirtyNext := none, pDirtyPrev := none } := by
  unfold dirtyRemove
  rw [setEnt_ent, if_pos rfl]
  have hf : ((removeFixPrev (removeFixNext s i) i).ent i).flags = (s.ent i).flags := by
    rw [removeFixPrev_flags, removeFixNext_flags]
  show ({ (removeFixPrev (removeFixNext s i) i).ent i with
            pDirtyNext := none, pDirtyPrev := none } : PgHdr) = _
  rw [show ({ (removeFixPrev (removeFixNext s i) i).ent i with
        pDirtyNext := none, pDirtyPrev := none } : PgHdr) =
      { flags := ((removeFixPrev (removeFixNext s i) i).ent i).flags,
        pDirtyNext := none, pDirtyPrev := none } from rfl, hf]

theorem dirtyRemove_ent_other (s : PCache) (i j : Nat) (hji : j ≠ i)
    (hjn : (s.ent i).pDirtyNext ≠ some j) (hjp : (s.ent i).pDirtyPrev ≠ some j) :
    (dirtyRemove s i).ent j = s.ent j := by
  unfold dirtyRemove
  rw [setEnt_ent, if_neg hji]
  rw [removeFixPrev_ent_other _ _ _ (by rw [removeFixNext_ent_i]; exact hjp)]
  exact removeFixNext_ent_other _ _ _ hjn

theorem dirtyRemove_ent_b (s : PCache) {i b : Nat}
    (hnx : (s.ent i).pDirtyNext = some b) (hbi : b ≠ i)
    (hbpv : (s.ent i).pDirtyPrev ≠ some b) :
    (dirtyRemove s i).ent b =
      { s.ent b with pDirtyPrev := (s.ent i).pDirtyPrev } := by
  unfold dirtyRemove
  rw [setEnt_ent, if_neg hbi]
  rw [removeFixPrev_ent_other _ _ _ (by rw [removeFixNext_ent_i]; exact hbpv)]
  exact removeFixNext_ent_nx s hnx

theorem dirtyRemove_ent_la (s : PCache) {i la : Nat}
    (hpv : (s.ent i).pDirtyPrev = some la) (hlai : la ≠ i)
    (hlanx : (s.ent i).pDirtyNext ≠ some la) :
    (dirtyRemove s i).ent la =
      { s.ent la with pDirtyNext := (s.ent i).pDirtyNext } := by
  unfold dirtyRemove
  rw [setEnt_ent, if_neg hlai]
  rw [removeFixPrev_ent_pv _ (by rw [removeFixNext_ent_i]; exact hpv)]
  rw [removeFixNext_ent_other _ _ _ hlanx, removeFixNext_ent_i]

theorem dirtyRemove_pDirty (s : PCache) (i : Nat) :
    (dirtyRemove s i).pDirty =
      if (s.ent i).pDirtyPrev = none then (s.ent i).pDirtyNext else s.pDirty := by
  unfold dirtyRemove
  show (removeFixPrev (removeFixNext s i) i).pDirty = _
  rw [removeFixPrev_pDirty, removeFixNext_ent_i, removeFixNext_pDirty]

theorem dirtyRemove_pDirtyTail (s : PCache) (i : Nat) :
    (dirtyRemove s i).pDirtyTail =
      if (s.ent i).pDirtyNext = none then (s.ent i).pDirtyPrev else s.pDirtyTail := by
  unfold dirtyRemove
  show (removeFixPrev (removeFixNext s i) i).pDirtyTail = _
  rw [removeFixPrev_pDirtyTail, removeFixNext_pDirtyTail]

/-! Projection lemmas for the ADD surgery. -/

theorem addFixPrev_flags (s1 : PCache) (i j : Nat) :
    ((addFixPrev s1 i).ent j).flags = (s1.ent j).flags := by
  unfold addFixPrev
  cases hnx : (s1.ent i).pDirtyNext with
  | none => rfl
  | some nx =>
    rw [setEnt_ent]
    by_cases h : j = nx
    · subst h
      rw [if_pos rfl]
    · rw [if_neg h]

theorem addFixPrev_ent_other (s1 : PCache) (i j : Nat)
    (hjn : (s1.ent i).pDirtyNext ≠ some j) :
    (addFixPrev s1 i).ent j = s1.ent j := by
  unfold addFixPrev
  cases hnx : (s1.ent i).pDirtyNext with
  | none => rfl
  | some nx =>
    have hne : j ≠ nx := fun h => hjn (h ▸ hnx)
    rw [setEnt_ent, if_neg hne]

theorem addFixPrev_ent_nx (s1 : PCache) {i nx : Nat}
    (hnx : (s1.ent i).pDirtyNext = some nx) :
    (addFixPrev s1 i).ent nx = { s1.ent nx with pDirtyPrev := some i } := by
  unfold addFixPrev
  simp only [hnx]
  rw [setEnt_ent, if_pos rfl]

theorem addFixPrev_pDirty (s1 : PCache) (i : Nat) :
    (addFixPrev s1 i).pDirty = s1.pDirty := by
  unfold addFixPrev
  cases hnx : (s1.ent i).pDirtyNext <;> rfl

theorem addFixPrev_univ (s1 : PCache) (i : Nat) :
    (addFixPrev s1 i).univ = s1.univ := by
  unfold addFixPrev
  cases hnx : (s1.ent i).pDirtyNext <;> rfl

theorem addFixPrev_pDirtyTail (s1 : PCache) (i : Nat) :
    (addFixPrev s1 i).pDirtyTail =
      if (s1.ent i).pDirtyNext = none then some i else s1.pDirtyTail := by
  unfold addFixPrev
  cases hnx : (s1.ent i).pDirtyNext with
  | none => simp
  | some nx => simp [hnx, setEnt_pDirtyTail]

theorem addSetNext_ent_i (s : PCache) (i : Nat) :
    (addSetNext s i).ent i = { s.ent i with pDirtyNext := s.pDirty } := by
  unfold addSetNext
  rw [setEnt_ent, if_pos rfl]

theorem addSetNext_ent_other (s : PCache) (i j : Nat) (hji : j ≠ i) :
    (addSetNext s i).ent j = s.ent j := by
  unfold addSetNext
  rw [setEnt_ent, if_neg hji]

theorem dirtyAdd_univ (s : PCache) (i : Nat) : (dirtyAdd s i).univ = s.univ := by
  unfold dirtyAdd
  show (addFixPrev (addSetNext s i) i).univ = s.univ
  rw [addFixPrev_univ]
  rfl

theorem dirtyAdd_pDirty (s : PCache) (i : Nat) : (dirtyAdd s i).pDirty = some i := rfl

theorem dirtyAdd_pDirtyTail (s : PCache) (i : Nat) :
    (dirtyAdd s i).pDirtyTail = if s.pDirty = none then some i else s.pDirtyTail := by
  unfold dirtyAdd
  show (addFixPrev (addSetNext s i) i).pDirtyTail = _
  rw [addFixPrev_pDirtyTail, addSetNext_ent_i]
  rfl

/-- The ADD pointer surgery touches no flags. -/
theorem dirtyAdd_flags (s : PCache) (i j : Nat) :
    ((dirtyAdd s i).ent j).flags = (s.ent j).flags := by
  unfold dirtyAdd
  show ((addFixPrev (addSetNext s i) i).ent j).flags = _
  rw [addFixPrev_flags]
  unfold addSetNext
  rw [setEnt_ent]
  by_cases h : j = i
  · subst h
    rw [if_pos rfl]
  · rw [if_neg h]

theorem dirtyAdd_ent_i (s : PCache) (i : Nat) (hni : s.pDirty ≠ some i) :
    (dirtyAdd s i).ent i = { s.ent i with pDirtyNext := s.pDirty } := by
  unfold dirtyAdd
  show (addFixPrev (addSetNext s i) i).ent i = _
  rw [addFixPrev_ent_other _ _ _ (by rw [addSetNext_ent_i]; exact hni),
    addSetNext_ent_i]

theorem dirtyAdd_ent_other (s : PCache) (i j : Nat) (hji : j ≠ i)
    (hjh : s.pDirty ≠ some j) :
    (dirtyAdd s i).ent j = s.ent j := by
  unfold dirtyAdd
  show (addFixPrev (addSetNext s i) i).ent j = _
  rw [addFixPrev_ent_other _ _ _ (by rw [addSetNext_ent_i]; exact hjh),
    addSetNext_ent_other _ _ _ hji]

theorem dirtyAdd_ent_h (s : PCache) {i h : Nat} (hh : s.pDirty = some h)
    (hhi : h ≠ i) :
    (dirtyAdd s i).ent h = { s.ent h with pDirtyPrev := some i } := by
  unfold dirtyAdd
  show (addFixPrev (addSetNext s i) i).ent h = _
  rw [addFixPrev_ent_nx _ (by rw [addSetNext_ent_i]; exact hh),
    addSetNext_ent_other _ _ _ hhi]

/-- After `MakeDirty`, the entry's `CLEAN` bit is down. -/
theorem MakeDirty_clean_false (s : PCache) (i : Nat)
    (h : (s.ent i).flags.clean = true) :
    ((MakeDirty s i).ent i).flags.clean = false := by
  unfold MakeDirty
  rw [if_pos h, ManageDirtyList_add, dirtyAdd_flags]
  simp [setEnt, h]

/-- After `MakeClean`, the entry's `DIRTY` bit is down. -/
theorem MakeClean_dirty_false (s : PCache) (i : Nat)
    (h : (s.ent i).flags.dirty = true) :
    ((MakeClean s i).ent i).flags.dirty = false := by
  unfold MakeClean
  rw [if_pos h]
  simp [setEnt]

/-- `MakeDirty` on an entry without the `CLEAN` bit is the identity. -/
theorem MakeDirty_of_not_clean {s : PCache} {i : Nat}
    (h : ¬(s.ent i).flags.clean = true) : MakeDirty s i = s := by
  unfold MakeDirty
  rw [if_neg h]

/-- `MakeClean` on an entry without the `DIRTY` bit is the identity. -/
theorem MakeClean_of_not_dirty {s : PCache} {i : Nat}
    (h : ¬(s.ent i).flags.dirty = true) : MakeClean s i = s := by
  unfold MakeClean
  rw [if_neg h]

/-- `chainSeg s prv xs nxt`: the ids `xs` form a consecutive run of a
doubly linked `pDirty` chain in `s` — the first entry's `pDirtyPrev` is
`prv`, consecutive entries point at each other, and the last entry's
`pDirtyNext` is `nxt`. -/
def chainSeg (s : PCache) : Option Nat → List Nat → Option Nat → Prop
  | _, [], _ => True
  | prv, x :: xs, nxt =>
    (s.ent x).pDirtyPrev = prv ∧ (s.ent x).pDirtyNext = xs.head?.or nxt ∧
      chainSeg s (some x) xs nxt

/-- The dirty-list invariant of the cache "at rest": `L` is the dirty
list from head to tail; it is a doubly linked chain delimited by
`pDirty`/`pDirtyTail`; an entry of the cache carries `DIRTY` iff it is a
member, carries `CLEAN` iff it is not, and non-members hold no stray
list pointers. -/
structure DL (s : PCache) (L : List Nat) : Prop where
  chain : chainSeg s none L none
  head : s.pDirty = L.head?
  tail : s.pDirtyTail = L.getLast?
  nodup : L.Nodup
  sub : ∀ x ∈ L, x ∈ s.univ
  memFlags : ∀ j ∈ s.univ,
    ((s.ent j).flags.dirty = true ↔ j ∈ L) ∧
    ((s.ent j).flags.clean = true ↔ j ∉ L) ∧
    (j ∉ L → (s.ent j).pDirtyNext = none ∧ (s.ent j).pDirtyPrev = none)

theorem chainSeg_congr {s s' : PCache} {xs : List Nat}
    (h : ∀ x ∈ xs, s'.ent x = s.ent x) :
    ∀ {prv nxt : Option Nat}, chainSeg s prv xs nxt → chainSeg s' prv xs nxt := by
  induction xs with
  | nil => intro prv nxt _; trivial
  | cons x xs ih =>
    intro prv nxt hc
    obtain ⟨h1, h2, h3⟩ := hc
    have hx := h x (List.mem_cons_self x xs)
    exact ⟨by rw [hx]; exact h1, by rw [hx]; exact h2,
      ih (fun y hy => h y (List.mem_cons_of_mem _ hy)) h3⟩

theorem head?_append_or (A B : List Nat) (nxt : Option Nat) :
    ((A ++ B).head?).or nxt = A.head?.or (B.head?.or nxt) := by
  cases A <;> rfl

theorem getLast?_cons_or (a : Nat) (A : List Nat) (prv : Option Nat) :
    ((a :: A).getLast?).or prv = A.getLast?.or (some a) := by
  cases A with
  | nil => rfl
  | cons b A' =>
    rw [List.getLast?_cons_cons]
    cases h : (b :: A').getLast? with
    | none =>
      rw [List.getLast?_eq_none_iff] at h
      exact absurd h (List.cons_ne_nil b A')
    | some z => rfl

theorem chainSeg_append {s : PCache} (A B : List Nat) :
    ∀ (prv nxt : Option Nat), chainSeg s prv (A ++ B) nxt ↔
      chainSeg s prv A (B.head?.or nxt) ∧ chainSeg s (A.getLast?.or prv) B nxt := by
  induction A with
  | nil =>
    intro prv nxt
    simp [chainSeg]
  | cons a A ih =>
    intro prv nxt
    rw [List.cons_append]
    show ((s.ent a).pDirtyPrev = prv ∧ _ ∧ chainSeg s (some a) (A ++ B) nxt) ↔ _
    rw [ih (some a) nxt, head?_append_or, getLast?_cons_or]
    show _ ↔ ((s.ent a).pDirtyPrev = prv ∧ _ ∧ chainSeg s (some a) A (B.head?.or nxt)) ∧ _
    tauto

/-- Decompose the chain invariant around a member `i`. -/
theorem chainSeg_mid {s : PCache} {A B : List Nat} {i : Nat}
    (h : chainSeg s none (A ++ i :: B) none) :
    (s.ent i).pDirtyPrev = A.getLast? ∧ (s.ent i).pDirtyNext = B.head? ∧
    chainSeg s none A (some i) ∧ chainSeg s (some i) B none := by
  rw [chainSeg_append A (i :: B) none none] at h
  obtain ⟨hA, h1, h2, h3⟩ := h
  refine ⟨by rw [h1, Option.or_none], by rw [h2, Option.or_none], ?_, h3⟩
  simpa using hA

/-- Retarget the tail of a chain segment: overwrite the last entry's
`pDirtyNext` (which pointed at `i`) with `nw`. -/
theorem chainSeg_settail {s : PCache} {la i : Nat} {nw : Option Nat} {e : PgHdr} :
    ∀ (A : List Nat) {prv : Option Nat}, A.getLast? = some la → A.Nodup → i ∉ A →
      e.pDirtyPrev = (s.ent la).pDirtyPrev → e.pDirtyNext = nw →
      chainSeg s prv A (some i) → chainSeg (setEnt s la e) prv A nw := by
  intro A
  induction A with
  | nil => intro prv hla; cases hla
  | cons a A' ih =>
    intro prv hla hnd hiA hep hen hc
    obtain ⟨h1, h2, h3⟩ := hc
    cases A' with
    | nil =>
      have hala : a = la := by
        rw [List.getLast?_singleton] at hla
        exact Option.some.inj hla
      subst hala
      refine ⟨?_, ?_, trivial⟩
      · rw [setEnt_ent, if_pos rfl, hep]; exact h1
      · rw [setEnt_ent, if_pos rfl, hen]; rfl
    | cons b A'' =>
      rw [List.getLast?_cons_cons] at hla
      have hala : a ≠ la := by
        intro hcon
        have hmem : la ∈ b :: A'' := by
          obtain ⟨hne, heq⟩ :=
            List.mem_getLast?_eq_getLast (Option.mem_def.mpr hla)
          rw [heq]
          exact List.getLast_mem hne
        have := (List.nodup_cons.mp hnd).1
        rw [hcon] at this
        exact this hmem
      refine ⟨?_, ?_, ?_⟩
      · rw [setEnt_ent, if_neg hala]; exact h1
      · rw [setEnt_ent, if_neg hala]; exact h2
      · exact ih hla (List.nodup_cons.mp hnd).2
          (fun hmem => hiA (List.mem_cons_of_mem _ hmem)) hep hen h3

theorem getLast?_append_cons (x : Nat) (xs : List Nat) :
    ∀ A : List Nat, (A ++ x :: xs).getLast? = (x :: xs).getLast? := by
  intro A
  induction A with
  | nil => rfl
  | cons a A ih =>
    rw [List.cons_append]
    cases hAx : A ++ x :: xs with
    | nil => exact absurd hAx (by simp)
    | cons y ys => rw [List.getLast?_cons_cons, ← hAx, ih]

/-- In the acting case, `MakeClean` is the REMOVE splice followed by the
flag update at the entry. -/
theorem MakeClean_eq_remove (s : PCache) (i : Nat)
    (hd : (s.ent i).flags.dirty = true) :
    MakeClean s i = setEnt (dirtyRemove s i) i
      { (dirtyRemove s i).ent i with
          flags := { ((dirtyRemove s i).ent i).flags with
            dirty := false, needSync := false, writeable := false, clean := true } } := by
  unfold MakeClean
  rw [if_pos hd, ManageDirtyList_remove]

/-- `MakeClean` preserves the dirty-list invariant: on a `DIRTY` entry it
splices the entry out of the list and re-flags it `CLEAN`; otherwise it
does nothing. -/
theorem MakeClean_DL {s : PCache} {L : List Nat} {i : Nat}
    (hDL : DL s L) (hi : i ∈ s.univ) :
    DL (MakeClean s i) (L.erase i) := by
  by_cases hd : (s.ent i).flags.dirty = true
  case neg =>
    rw [MakeClean_of_not_dirty hd]
    have hiL : i ∉ L := fun h => hd ((hDL.memFlags i hi).1.mpr h)
    rw [List.erase_of_not_mem hiL]
    exact hDL
  case pos =>
    have hiL : i ∈ L := (hDL.memFlags i hi).1.mp hd
    obtain ⟨A, B, hL⟩ := List.append_of_mem hiL
    subst hL
    have hnd := hDL.nodup
    rw [List.nodup_append] at hnd
    obtain ⟨hndA, hndiB, hdisj⟩ := hnd
    have hiA : i ∉ A := fun h => hdisj h (List.mem_cons_self i B)
    have hiB : i ∉ B := (List.nodup_cons.mp hndiB).1
    have hndB : B.Nodup := (List.nodup_cons.mp hndiB).2
    obtain ⟨prevI, nextI, hcA, hcB⟩ := chainSeg_mid hDL.chain
    have hgetA : ∀ x : Nat, A.getLast? = some x → x ∈ A := by
      intro x hx
      obtain ⟨hne, heq⟩ := List.mem_getLast?_eq_getLast (Option.mem_def.mpr hx)
      rw [heq]
      exact List.getLast_mem hne
    have hheadB : ∀ x : Nat, B.head? = some x → x ∈ B :=
      fun x hx => List.mem_of_mem_head? (Option.mem_def.mpr hx)
    -- the splice never points at a member of the other side
    have hnext_ne : ∀ x : Nat, x ∈ A → (s.ent i).pDirtyNext ≠ some x := by
      intro x hxA hcon
      rw [nextI] at hcon
      exact hdisj hxA (List.mem_cons_of_mem _ (hheadB x hcon))
    have hprev_ne : ∀ x : Nat, x ∈ B → (s.ent i).pDirtyPrev ≠ some x := by
      intro x hxB hcon
      rw [prevI] at hcon
      exact hdisj (hgetA x hcon) (List.mem_cons_of_mem _ hxB)
    have herase : (A ++ i :: B).erase i = A ++ B := by
      rw [List.erase_append_right _ hiA, List.erase_cons_head]
    rw [herase, MakeClean_eq_remove s i hd]
    have hf1 : (setEnt (dirtyRemove s i) i
        { (dirtyRemove s i).ent i with
            flags := { ((dirtyRemove s i).ent i).flags with
              dirty := false, needSync := false, writeable := false, clean := true } }).ent i =
        (⟨⟨true, false, false, false⟩, none, none⟩ : PgHdr) := by
      rw [setEnt_ent, if_pos rfl, dirtyRemove_ent_self]
    have hf2 : ∀ j, j ≠ i → (setEnt (dirtyRemove s i) i
        { (dirtyRemove s i).ent i with
            flags := { ((dirtyRemove s i).ent i).flags with
              dirty := false, needSync := false, writeable := false, clean := true } }).ent j =
        (dirtyRemove s i).ent j := by
      intro j hj
      rw [setEnt_ent, if_neg hj]
    have hother : ∀ j, j ≠ i → j ∉ A → j ∉ B → (dirtyRemove s i).ent j = s.ent j := by
      intro j hj hjA hjB
      refine dirtyRemove_ent_other s i j hj ?_ ?_
      · intro hcon
        rw [nextI] at hcon
        exact hjB (hheadB j hcon)
      · intro hcon
        rw [prevI] at hcon
        exact hjA (hgetA j hcon)
    refine ⟨?_, ?_, ?_, ?_, ?_, ?_⟩
    · -- chain invariant for A ++ B
      refine (chainSeg_append A B none none).mpr ⟨?_, ?_⟩
      · -- the A side, retargeted at B.head?
        cases hA : A.getLast? with
        | none =>
          rw [List.getLast?_eq_none_iff] at hA
          subst hA
          trivial
        | some la =>
          have hlaA : la ∈ A := hgetA la hA
          have hlai : la ≠ i := fun h => hiA (h ▸ hlaA)
          have hlaB : la ∉ B := fun h => hdisj hlaA (List.mem_cons_of_mem _ h)
          have hsettail : chainSeg (setEnt s la
              { s.ent la with pDirtyNext := B.head? }) none A (B.head?) :=
            chainSeg_settail A hA hndA hiA rfl rfl hcA
          rw [show (B.head?).or none = B.head? from Option.or_none]
          refine chainSeg_congr ?_ hsettail
          intro x hxA
          have hxi : x ≠ i := fun h => hiA (h ▸ hxA)
          by_cases hxla : x = la
          · subst hxla
            rw [hf2 x hxi,
              dirtyRemove_ent_la s (prevI.trans hA) hxi (hnext_ne x hxA), nextI,
              setEnt_ent, if_pos rfl]
          · rw [hf2 x hxi,
              dirtyRemove_ent_other s i x hxi (hnext_ne x hxA) ?_,
              setEnt_ent, if_neg hxla]
            rw [prevI, hA]
            exact fun hcon => hxla (Option.some.inj hcon).symm
      · -- the B side, re-anchored at A.getLast?
        rw [show (A.getLast?).or none = A.getLast? from Option.or_none]
        cases hB : B with
        | nil => trivial
        | cons b B' =>
          rw [hB] at hcB
          obtain ⟨hpb, hnb, hcB'⟩ := hcB
          have hbB : b ∈ B := by rw [hB]; exact List.mem_cons_self b B'
          have hbi : b ≠ i := fun h => hiB (h ▸ hbB)
          refine ⟨?_, ?_, ?_⟩
          · rw [hf2 b hbi,
              dirtyRemove_ent_b s (nextI.trans (by rw [hB]; rfl)) hbi (hprev_ne b hbB),
              prevI]
          · rw [hf2 b hbi,
              dirtyRemove_ent_b s (nextI.trans (by rw [hB]; rfl)) hbi (hprev_ne b hbB)]
            exact hnb
          · refine chainSeg_congr ?_ hcB'
            intro x hxB'
            have hxB : x ∈ B := by rw [hB]; exact List.mem_cons_of_mem _ hxB'
            have hxi : x ≠ i := fun h => hiB (h ▸ hxB)
            have hbB' : b ∉ B' := by
              rw [hB] at hndB
              exact (List.nodup_cons.mp hndB).1
            have hxb : x ≠ b := fun h => hbB' (h ▸ hxB')
            rw [hf2 x hxi,
              dirtyRemove_ent_other s i x hxi ?_ (hprev_ne x hxB)]
            intro hcon
            rw [nextI, hB] at hcon
            exact hxb (Option.some.inj hcon).symm
    · -- pDirty = head of the new list
      show (dirtyRemove s i).pDirty = _
      rw [dirtyRemove_pDirty]
      cases hA : A with
      | nil =>
        rw [hA] at prevI
        have hpn : (s.ent i).pDirtyPrev = none := by rw [prevI]; rfl
        rw [if_pos hpn, nextI]
        rfl
      | cons a A' =>
        rw [hA] at prevI
        have hne : (s.ent i).pDirtyPrev ≠ none := by
          rw [prevI]
          intro hcon
          rw [List.getLast?_eq_none_iff] at hcon
          exact List.cons_ne_nil a A' hcon
        rw [if_neg hne, hDL.head, hA]
        rfl
    · -- pDirtyTail = last of the new list
      show (dirtyRemove s i).pDirtyTail = _
      rw [dirtyRemove_pDirtyTail]
      cases hB : B with
      | nil =>
        rw [hB] at nextI
        have hnn : (s.ent i).pDirtyNext = none := by rw [nextI]; rfl
        rw [if_pos hnn, prevI, List.append_nil]
      | cons b B' =>
        rw [hB] at nextI
        have hne : (s.ent i).pDirtyNext ≠ none := by
          rw [nextI]
          exact fun h => Option.noConfusion h
        rw [if_neg hne, hDL.tail, hB, getLast?_append_cons, List.getLast?_cons_cons,
          ← getLast?_append_cons b B' A]
    · -- Nodup
      exact List.nodup_append.mpr
        ⟨hndA, hndB, fun x hx hxB => hdisj hx (List.mem_cons_of_mem _ hxB)⟩
    · -- membership in univ
      intro x hx
      have huniv : ∀ e : PgHdr, (setEnt (dirtyRemove s i) i e).univ = s.univ := by
        intro e
        rw [setEnt_univ, dirtyRemove_univ]
      rw [huniv]
      rcases List.mem_append.mp hx with hxA | hxB
      · exact hDL.sub x (List.mem_append.mpr (Or.inl hxA))
      · exact hDL.sub x (List.mem_append.mpr (Or.inr (List.mem_cons_of_mem _ hxB)))
    · -- flags and stray pointers
      intro j hj
      have huniv : ∀ e : PgHdr, (setEnt (dirtyRemove s i) i e).univ = s.univ := by
        intro e
        rw [setEnt_univ, dirtyRemove_univ]
      rw [huniv] at hj
      have hj' : j ∈ s.univ := hj
      by_cases hji : j = i
      · subst hji
        rw [hf1]
        have hjAB : j ∉ A ++ B := by
          intro hcon
          rcases List.mem_append.mp hcon with h | h
          · exact hiA h
          · exact hiB h
        refine ⟨?_, ?_, ?_⟩
        · constructor
          · intro h
            cases h
          · intro h
            exact absurd h hjAB
        · constructor
          · intro _
            exact hjAB
          · intro _
            rfl
        · intro _
          exact ⟨rfl, rfl⟩
      · have hflags : ((setEnt (dirtyRemove s i) i
            { (dirtyRemove s i).ent i with
                flags := { ((dirtyRemove s i).ent i).flags with
                  dirty := false, needSync := false, writeable := false,
                  clean := true } }).ent j).flags = (s.ent j).flags := by
          rw [hf2 j hji, dirtyRemove_flags]
        have hmem := hDL.memFlags j hj'
        have hmemiff : j ∈ A ++ B ↔ j ∈ A ++ i :: B := by
          constructor
          · intro h
            rcases List.mem_append.mp h with h2 | h2
            · exact List.mem_append.mpr (Or.inl h2)
            · exact List.mem_append.mpr (Or.inr (List.mem_cons_of_mem _ h2))
          · intro h
            rcases List.mem_append.mp h with h2 | h2
            · exact List.mem_append.mpr (Or.inl h2)
            · rcases List.mem_cons.mp h2 with h3 | h3
              · exact absurd h3 hji
              · exact List.mem_append.mpr (Or.inr h3)
        refine ⟨?_, ?_, ?_⟩
        · rw [hflags]
          exact hmem.1.trans (Iff.symm hmemiff)
        · rw [hflags]
          constructor
          · intro h hcon
            exact (hmem.2.1.mp h) (hmemiff.mp hcon)
          · intro h
            exact hmem.2.1.mpr (fun hcon => h (hmemiff.mpr hcon))
        · intro hnot
          have hjL : j ∉ A ++ i :: B := fun h => hnot (hmemiff.mpr h)
          have hjA : j ∉ A := fun h => hjL (List.mem_append.mpr (Or.inl h))
          have hjB : j ∉ B :=
            fun h => hjL (List.mem_append.mpr (Or.inr (List.mem_cons_of_mem _ h)))
          rw [hf2 j hji, hother j hji hjA hjB]
          exact hmem.2.2 hjL

/-- In the acting case, `MakeDirty` is the flag flip followed by the ADD
surgery. -/
theorem MakeDirty_eq_add (s : PCache) (i : Nat)
    (hc : (s.ent i).flags.clean = true) :
    MakeDirty s i = dirtyAdd (setEnt s i
      { s.ent i with flags := { (s.ent i).flags with
          clean := !(s.ent i).flags.clean, dirty := !(s.ent i).flags.dirty } }) i := by
  unfold MakeDirty
  rw [if_pos hc, ManageDirtyList_add]

/-- `MakeDirty` preserves the dirty-list invariant: on a `CLEAN` entry it
flips the flags and links the entry at the head of the list; otherwise it
does nothing. -/
theorem MakeDirty_DL {s : PCache} {L : List Nat} {i : Nat}
    (hDL : DL s L) (hi : i ∈ s.univ) :
    DL (MakeDirty s i) (if (s.ent i).flags.clean = true then i :: L else L) := by
  by_cases hc : (s.ent i).flags.clean = true
  case neg =>
    rw [if_neg hc, MakeDirty_of_not_clean hc]
    exact hDL
  case pos =>
    rw [if_pos hc, MakeDirty_eq_add s i hc]
    have hiL : i ∉ L := (hDL.memFlags i hi).2.1.mp hc
    have hptr := (hDL.memFlags i hi).2.2 hiL
    have hdirtyi : (s.ent i).flags.dirty = false := by
      cases hdi : (s.ent i).flags.dirty
      · rfl
      · exact absurd ((hDL.memFlags i hi).1.mp hdi) hiL
    have hheadL : ∀ x : Nat, s.pDirty = some x → x ∈ L := by
      intro x hx
      rw [hDL.head] at hx
      exact List.mem_of_mem_head? (Option.mem_def.mpr hx)
    have hni : (setEnt s i { s.ent i with flags := { (s.ent i).flags with
        clean := !(s.ent i).flags.clean, dirty := !(s.ent i).flags.dirty } }).pDirty
        ≠ some i := by
      rw [setEnt_pDirty]
      intro hcon
      exact hiL (hheadL i hcon)
    set e1 : PgHdr := { s.ent i with flags := { (s.ent i).flags with
      clean := !(s.ent i).flags.clean, dirty := !(s.ent i).flags.dirty } } with he1
    set s1 : PCache := setEnt s i e1 with hs1
    have hs1i : s1.ent i = e1 := by rw [hs1, setEnt_ent, if_pos rfl]
    have hs1other : ∀ j, j ≠ i → s1.ent j = s.ent j := by
      intro j hj
      rw [hs1, setEnt_ent, if_neg hj]
    have hs1Dirty : s1.pDirty = s.pDirty := by rw [hs1, setEnt_pDirty]
    have hentI : (dirtyAdd s1 i).ent i = { e1 with pDirtyNext := s.pDirty } := by
      rw [dirtyAdd_ent_i s1 i hni, hs1i, hs1Dirty]
    have hentOther : ∀ j, j ≠ i → j ∉ L.head?.toList →
        (dirtyAdd s1 i).ent j = s.ent j := by
      intro j hj hjh
      rw [dirtyAdd_ent_other s1 i j hj, hs1other j hj]
      rw [hs1Dirty, hDL.head]
      intro hcon
      apply hjh
      rw [hcon]
      exact List.mem_singleton.mpr rfl
    refine ⟨?_, ?_, ?_, ?_, ?_, ?_⟩
    · -- chainSeg (dirtyAdd s1 i) none (i :: L) none
      refine ⟨?_, ?_, ?_⟩
      · rw [hentI]
        show e1.pDirtyPrev = none
        rw [he1]
        exact hptr.2
      · rw [hentI]
        show s.pDirty = (L.head?).or none
        rw [Option.or_none]
        exact hDL.head
      · cases hL : L with
        | nil => trivial
        | cons hd t =>
          have hchain := hDL.chain
          rw [hL] at hchain
          obtain ⟨hph, hnh, hct⟩ := hchain
          have hhdi : hd ≠ i := by
            intro hcon
            rw [hL, hcon] at hiL
            exact hiL (List.mem_cons_self i t)
          have hsPD : s1.pDirty = some hd := by
            rw [hs1Dirty, hDL.head, hL]
            rfl
          have hndL := hDL.nodup
          rw [hL] at hndL
          refine ⟨?_, ?_, ?_⟩
          · rw [dirtyAdd_ent_h s1 hsPD hhdi, hs1other hd hhdi]
          · rw [dirtyAdd_ent_h s1 hsPD hhdi, hs1other hd hhdi]
            exact hnh
          · refine chainSeg_congr ?_ hct
            intro x hx
            have hxi : x ≠ i := by
              intro hcon
              rw [hL] at hiL
              rw [hcon] at hx
              exact hiL (List.mem_cons_of_mem _ hx)
            rw [dirtyAdd_ent_other s1 i x hxi, hs1other x hxi]
            rw [hs1Dirty, hDL.head, hL]
            intro hcon
            have : x = hd := by
              have := Option.some.inj hcon
              exact this.symm
            exact (List.nodup_cons.mp hndL).1 (this ▸ hx)
    · rw [dirtyAdd_pDirty]
      rfl
    · rw [dirtyAdd_pDirtyTail, hs1Dirty]
      cases hL : L with
      | nil =>
        have : s.pDirty = none := by rw [hDL.head, hL]; rfl
        rw [if_pos this]
        rfl
      | cons hd t =>
        have : s.pDirty ≠ none := by
          rw [hDL.head, hL]
          exact fun h => Option.noConfusion h
        rw [if_neg this, hs1, setEnt_pDirtyTail, hDL.tail, hL,
          List.getLast?_cons_cons]
    · exact List.nodup_cons.mpr ⟨hiL, hDL.nodup⟩
    · intro x hx
      have huniv : (dirtyAdd s1 i).univ = s.univ := by
        rw [dirtyAdd_univ, hs1, setEnt_univ]
      rw [huniv]
      rcases List.mem_cons.mp hx with rfl | hx2
      · exact hi
      · exact hDL.sub x hx2
    · intro j hj
      have huniv : (dirtyAdd s1 i).univ = s.univ := by
        rw [dirtyAdd_univ, hs1, setEnt_univ]
      rw [huniv] at hj
      by_cases hji : j = i
      · subst hji
        refine ⟨?_, ?_, ?_⟩
        · constructor
          · intro _
            exact List.mem_cons_self j L
          · intro _
            rw [hentI]
            show (e1.flags.dirty = true)
            rw [he1]
            show (!(s.ent j).flags.dirty) = true
            rw [hdirtyi]
            rfl
        · constructor
          · intro hcl
            exfalso
            have hcf : ((dirtyAdd s1 j).ent j).flags.clean = false := by
              rw [hentI]
              show e1.flags.clean = false
              rw [he1]
              show (!(s.ent j).flags.clean) = false
              rw [hc]
              rfl
            rw [hcf] at hcl
            cases hcl
          · intro hnotin
            exact absurd (List.mem_cons_self j L) hnotin
        · intro hnotin
          exact absurd (List.mem_cons_self j L) hnotin
      · have hflags : ((dirtyAdd s1 i).ent j).flags = (s.ent j).flags := by
          rw [dirtyAdd_flags, hs1other j hji]
        have hmem := hDL.memFlags j hj
        refine ⟨?_, ?_, ?_⟩
        · rw [hflags]
          constructor
          · intro hd2
            exact List.mem_cons_of_mem _ (hmem.1.mp hd2)
          · intro hd2
            rcases List.mem_cons.mp hd2 with rfl | hd3
            · exact absurd rfl hji
            · exact hmem.1.mpr hd3
        · rw [hflags]
          constructor
          · intro hc2 hcon
            rcases List.mem_cons.mp hcon with rfl | hd3
            · exact hji rfl
            · exact (hmem.2.1.mp hc2) hd3
          · intro hnotin
            exact hmem.2.1.mpr (fun h => hnotin (List.mem_cons_of_mem _ h))
        · intro hnotin
          have hjL : j ∉ L := fun h => hnotin (List.mem_cons_of_mem _ h)
          have hjh : j ∉ L.head?.toList := by
            intro hcon
            cases hL : L.head? with
            | none =>
              rw [hL] at hcon
              cases hcon
            | some hd =>
              rw [hL] at hcon
              have : j = hd := List.mem_singleton.mp (by simpa using hcon)
              subst this
              exact hjL (List.mem_of_mem_head? (Option.mem_def.mpr hL))
          rw [hentOther j hji hjh]
          exact hmem.2.2 hjL

theorem MakeClean_univ (s : PCache) (i : Nat) : (MakeClean s i).univ = s.univ := by
  by_cases hd : (s.ent i).flags.dirty = true
  · rw [MakeClean_eq_remove s i hd, setEnt_univ, dirtyRemove_univ]
  · rw [MakeClean_of_not_dirty hd]

/-- `MakeCleanAll`, run with fuel equal to the dirty list's length, drains
the list completely; it never touches `univ`. -/
theorem MakeCleanAll_DL {s : PCache} {L : List Nat} (hDL : DL s L) :
    DL (MakeCleanAll s L.length) [] ∧ (MakeCleanAll s L.length).univ = s.univ := by
  induction L generalizing s with
  | nil => exact ⟨hDL, rfl⟩
  | cons hd t ih =>
    have hh : s.pDirty = some hd := by
      rw [hDL.head]
      rfl
    have hhd : hd ∈ s.univ := hDL.sub hd (List.mem_cons_self hd t)
    have hstep : DL (MakeClean s hd) t := by
      have := MakeClean_DL hDL hhd
      rw [List.erase_cons_head] at this
      exact this
    show DL (MakeCleanAll s (t.length + 1)) [] ∧
      (MakeCleanAll s (t.length + 1)).univ = s.univ
    have hred : MakeCleanAll s (t.length + 1) = MakeCleanAll (MakeClean s hd) t.length := by
      conv_lhs => rw [MakeCleanAll, hh]
    rw [hred]
    obtain ⟨h1, h2⟩ := ih hstep
    exact ⟨h1, by rw [h2, MakeClean_univ]⟩

/-- A concrete cache for the witness: entry 4 is the sole member of the
dirty list, entry 9 is resident and clean. -/
def dirtyS7 : PCache :=
  { ent := fun j =>
      if j = 4 then ⟨⟨false, true, false, false⟩, none, none⟩
      else ⟨⟨true, false, false, false⟩, none, none⟩
    pDirty := some 4
    pDirtyTail := some 4
    univ := [4, 9] }

/-- The dirty-list invariant holds in `dirtyS7` with dirty list `[4]`. -/
theorem dirtyS7_DL : DL dirtyS7 [4] := by
  refine ⟨⟨rfl, rfl, trivial⟩, rfl, rfl, by decide, by decide, by decide⟩

end Dirty

/-- C10: `MakeDirty` and `MakeClean` are idempotent — on every cache
state, a second application to the same entry changes nothing, because
the first application leaves the guarding flag bit (`CLEAN` for
`MakeDirty`, `DIRTY` for `MakeClean`) down. -/
theorem C10_MakeDirty_MakeClean_idempotent (s : Dirty.PCache) (i : Nat) :
    Dirty.MakeDirty (Dirty.MakeDirty s i) i = Dirty.MakeDirty s i ∧
    Dirty.MakeClean (Dirty.MakeClean s i) i = Dirty.MakeClean s i := by
  constructor
  · by_cases h : (s.ent i).flags.clean = true
    · exact Dirty.MakeDirty_of_not_clean
        (by rw [Dirty.MakeDirty_clean_false s i h]; exact Bool.false_ne_true)
    · rw [Dirty.MakeDirty_of_not_clean h]
      exact Dirty.MakeDirty_of_not_clean h
  · by_cases h : (s.ent i).flags.dirty = true
    · exact Dirty.MakeClean_of_not_dirty
        (by rw [Dirty.MakeClean_dirty_false s i h]; exact Bool.false_ne_true)
    · rw [Dirty.MakeClean_of_not_dirty h]
      exact Dirty.MakeClean_of_not_dirty h

/-- C7: the dirty-list invariant `Dirty.DL` — an entry is a member of the
dirty list iff its `DIRTY` flag is set (with the `CLEAN` flag its
complement and no stray list pointers on non-members) — is preserved by
the three operations: `MakeDirty` flips `CLEAN→DIRTY` and adds the entry
at the head of the list; `MakeClean` flips back and removes it;
`MakeCleanAll` (run with the list's length as loop fuel) drains the list
from the head, leaving it empty with every former member flagged
`CLEAN`. -/
theorem C7_dirty_list_invariant (s : Dirty.PCache) (L : List Nat) (i : Nat)
    (hDL : Dirty.DL s L) (hi : i ∈ s.univ) :
    Dirty.DL (Dirty.MakeDirty s i)
      (if (s.ent i).flags.clean = true then i :: L else L) ∧
    Dirty.DL (Dirty.MakeClean s i) (L.erase i) ∧
    Dirty.DL (Dirty.MakeCleanAll s L.length) [] ∧
    ∀ j ∈ L, ((Dirty.MakeCleanAll s L.length).ent j).flags.clean = true := by
  refine ⟨Dirty.MakeDirty_DL hDL hi, Dirty.MakeClean_DL hDL hi,
    (Dirty.MakeCleanAll_DL hDL).1, ?_⟩
  intro j hj
  obtain ⟨hfin, huniv⟩ := Dirty.MakeCleanAll_DL hDL
  have hju : j ∈ (Dirty.MakeCleanAll s L.length).univ := by
    rw [huniv]
    exact hDL.sub j hj
  exact (hfin.memFlags j hju).2.1.mpr (List.not_mem_nil j)

/-- Witness for `C7_dirty_list_invariant` at the concrete cache
`dirtyS7` (dirty list `[4]`, acting on entry 4): `MakeDirty` leaves the
list `[4]` (entry 4 is not `CLEAN`), `MakeClean` empties it,
`MakeCleanAll` with fuel 1 empties it and re-flags entry 4 `CLEAN`. -/
theorem C7_dirty_list_witness :
    Dirty.DL (Dirty.MakeDirty Dirty.dirtyS7 4) [4] ∧
    Dirty.DL (Dirty.MakeClean Dirty.dirtyS7 4) [] ∧
    Dirty.DL (Dirty.MakeCleanAll Dirty.dirtyS7 1) [] ∧
    ∀ j ∈ [4], ((Dirty.MakeCleanAll Dirty.dirtyS7 1).ent j).flags.clean = true :=
  C7_dirty_list_invariant Dirty.dirtyS7 [4] 4 Dirty.dirtyS7_DL (by decide)
